import Mathlib

/-!
Verification of `correlated_likelihood.py` (rvfitting repository).

Shallow embedding conventions:

* Floating-point numbers are modelled as real numbers; `np.log` is modelled by
  `Real.log` (the Mathlib totalization: `log x = log |x|` for `x ≠ 0` and
  `log 0 = 0`), `np.exp` by `Real.exp`.
* `scipy.linalg.lu_factor` performs Gaussian elimination with partial pivoting
  (LAPACK `getrf`).  We embed it in its equivalent recursive Schur-complement
  form, which produces the same pivot sequence (the diagonal of the returned
  `lu` factor read off by `np.diag`) and — together with `scipy.linalg.lu_solve`
  (LAPACK `getrs`, forward/back substitution) — the same solution vector.
* The `parameters.Parameters` class (module `parameters` is not part of the
  repository sources available here) is modelled from the spec, see `Params`.
* Randomness: `numpy.random` draws are modelled by explicit deviate arguments
  together with the interval contracts documented by numpy
  (`uniform(low, high)` lands in the half-open interval `[low, high)`).
-/

open scoped Classical

noncomputable section

namespace RVFit

/-- Index of an entry of largest absolute value of a vector: the pivot row
chosen by partial pivoting (LAPACK `getrf`) at the current elimination step. -/
def pivotIdx {n : ℕ} (v : Fin (n + 1) → ℝ) : Fin (n + 1) :=
  Classical.choose
    (Finset.exists_max_image Finset.univ (fun r => |v r|) ⟨0, Finset.mem_univ 0⟩)

/-- Swap of row 0 with the pivot row of the first column, as performed by
`getrf` before eliminating the first column. -/
def pivotSwap {n : ℕ} (M : Matrix (Fin (n + 1)) (Fin (n + 1)) ℝ) :
    Matrix (Fin (n + 1)) (Fin (n + 1)) ℝ :=
  M.submatrix (Equiv.swap 0 (pivotIdx (fun r => M r 0))) id

/-- Schur complement of the (0,0) entry: the trailing submatrix after one
step of Gaussian elimination. -/
def schurComp {n : ℕ} (M : Matrix (Fin (n + 1)) (Fin (n + 1)) ℝ) :
    Matrix (Fin n) (Fin n) ℝ :=
  Matrix.of fun i j => M i.succ j.succ - M i.succ 0 * M 0 j.succ / M 0 0

/-- Pivot sequence of the partially pivoted LU factorization: exactly the
diagonal of the `lu` factor returned by `scipy.linalg.lu_factor`, read off by
`np.diag(lu)` in `correlated_gaussian_loglikelihood`. -/
def luPivots : {n : ℕ} → Matrix (Fin n) (Fin n) ℝ → List ℝ
  | 0, _ => []
  | _ + 1, M => pivotSwap M 0 0 :: luPivots (schurComp (pivotSwap M))

/-- Solution of `M z = b` computed from the partially pivoted LU factorization
(`scipy.linalg.lu_solve`): permute the right-hand side, eliminate, solve the
Schur-complement system, back-substitute. -/
def luSolve : {n : ℕ} → Matrix (Fin n) (Fin n) ℝ → (Fin n → ℝ) → (Fin n → ℝ)
  | 0, _, _ => fun i => i.elim0
  | _ + 1, M, b =>
    let Ms := pivotSwap M
    let bs := fun i => b (Equiv.swap 0 (pivotIdx (fun r => M r 0)) i)
    let z := luSolve (schurComp Ms) (fun i => bs i.succ - Ms i.succ 0 * bs 0 / Ms 0 0)
    Fin.cases ((bs 0 - ∑ j, Ms 0 j.succ * z j) / Ms 0 0) z

/-- Embedding of `correlated_gaussian_loglikelihood(xs, means, cov)`:
`lu, piv = lu_factor(cov)`, `lambdas = diag(lu)`,
`ds = (xs - means) * lu_solve((lu, piv), xs - means) / 2`, and the returned
value `-log(2 pi) * (ndim / 2) - 0.5 * sum(log(lambdas)) - sum(ds)`. -/
def correlated_gaussian_loglikelihood {n : ℕ} (xs means : Fin n → ℝ)
    (cov : Matrix (Fin n) (Fin n) ℝ) : ℝ :=
  -Real.log (2 * Real.pi) * ((n : ℝ) / 2)
    - 0.5 * ((luPivots cov).map Real.log).sum
    - ∑ i, (xs i - means i) * luSolve cov (fun k => xs k - means k) i / 2

/-- Embedding of `generate_covariance(ts, sigma, tau)`: the code returns
`sigma*sigma*np.exp(-np.abs(tis-tjs)/tau)`, i.e. the (i,j) entry is
`sigma^2 * exp(-|t_i - t_j| / tau)` (note the squaring of `sigma`). -/
def generate_covariance {n : ℕ} (ts : Fin n → ℝ) (sigma tau : ℝ) :
    Matrix (Fin n) (Fin n) ℝ :=
  Matrix.of fun i j => sigma * sigma * Real.exp (-|ts i - ts j| / tau)

/-- Modelled from the spec: the `parameters.Parameters` class (module
`parameters` is not among the repository sources available here).  Per the
spec's data model, a parameter vector holds, for each of `nobs` observatories,
an offset `V`, a noise amplitude `sigma` and a correlation time `tau`, and for
each of `npl` planets a semi-amplitude `K`, mean motion `n`, eccentricity `e`,
phase `chi` and argument of periastron `omega`; named-field access is stable
under elementwise arithmetic and comparison of the flat vector. -/
structure Params (nobs npl : ℕ) where
  V : Fin nobs → ℝ
  sigma : Fin nobs → ℝ
  tau : Fin nobs → ℝ
  K : Fin npl → ℝ
  n : Fin npl → ℝ
  e : Fin npl → ℝ
  chi : Fin npl → ℝ
  omega : Fin npl → ℝ

/-- Modelled from the spec: the derived period accessor `p.P`, with mean
motion `n = 2 pi / period`, so `P = 2 pi / n`. -/
def Params.P {nobs npl : ℕ} (p : Params nobs npl) (j : Fin npl) : ℝ :=
  2 * Real.pi / p.n j

/-- Elementwise comparison `np.any(p <= q)` over the flat parameter vector:
some component of `p` is less than or equal to the matching component of `q`. -/
def anyLe {nobs npl : ℕ} (p q : Params nobs npl) : Prop :=
  (∃ i, p.V i ≤ q.V i) ∨ (∃ i, p.sigma i ≤ q.sigma i) ∨ (∃ i, p.tau i ≤ q.tau i) ∨
    (∃ j, p.K j ≤ q.K j) ∨ (∃ j, p.n j ≤ q.n j) ∨ (∃ j, p.e j ≤ q.e j) ∨
    (∃ j, p.chi j ≤ q.chi j) ∨ (∃ j, p.omega j ≤ q.omega j)

/-- Elementwise comparison `np.any(p >= q)`. -/
def anyGe {nobs npl : ℕ} (p q : Params nobs npl) : Prop :=
  anyLe q p

/-- Condition `np.any(p.P[1:] < p.P[:-1])`: some adjacent pair of planet
periods is strictly decreasing. -/
def periodsOutOfOrder {nobs npl : ℕ} (p : Params nobs npl) : Prop :=
  ∃ i j : Fin npl, (i : ℕ) + 1 = (j : ℕ) ∧ p.P j < p.P i

/-- Accumulated log-prior density of `LogPrior.__call__` once both checks have
passed: Jeffreys terms `-log sigma - log tau - log K - log n` and the thermal
eccentricity term `+log e`. -/
def prDensity {nobs npl : ℕ} (p : Params nobs npl) : ℝ :=
  -(∑ i, Real.log (p.sigma i)) - (∑ i, Real.log (p.tau i))
    - (∑ j, Real.log (p.K j)) - (∑ j, Real.log (p.n j))
    + ∑ j, Real.log (p.e j)

/-- Embedding of `LogPrior.__call__(p)` with explicitly supplied bounds
(the `pmin is None` / `pmax is None` lazy-default branch of `__init__` is not
exercised by the claims): reject with `-inf` if `np.any(p <= pmin) or
np.any(p >= pmax)`; reject with `-inf` if `npl > 1` and the periods are not
non-decreasing; otherwise return the accumulated log-density.  The codomain is
`EReal` so that the float value `-inf` is representable (`⊥`). -/
def logPrior {nobs npl : ℕ} (pmin pmax p : Params nobs npl) : EReal :=
  if anyLe p pmin ∨ anyGe p pmax then ⊥
  else if 1 < npl ∧ periodsOutOfOrder p then ⊥
  else ((prDensity p : ℝ) : EReal)

/-- Valid prior bounds: `pmin < pmax` fieldwise (the spec's box invariant;
infinite sentinels are irrelevant for the concrete claims). -/
def validBounds {nobs npl : ℕ} (pmin pmax : Params nobs npl) : Prop :=
  (∀ i, pmin.V i < pmax.V i) ∧ (∀ i, pmin.sigma i < pmax.sigma i) ∧
    (∀ i, pmin.tau i < pmax.tau i) ∧ (∀ j, pmin.K j < pmax.K j) ∧
    (∀ j, pmin.n j < pmax.n j) ∧ (∀ j, pmin.e j < pmax.e j) ∧
    (∀ j, pmin.chi j < pmax.chi j) ∧ (∀ j, pmin.omega j < pmax.omega j)

/-- Parameter vector strictly inside the open box `(pmin, pmax)` fieldwise. -/
def strictlyInside {nobs npl : ℕ} (pmin pmax p : Params nobs npl) : Prop :=
  (∀ i, pmin.V i < p.V i ∧ p.V i < pmax.V i) ∧
    (∀ i, pmin.sigma i < p.sigma i ∧ p.sigma i < pmax.sigma i) ∧
    (∀ i, pmin.tau i < p.tau i ∧ p.tau i < pmax.tau i) ∧
    (∀ j, pmin.K j < p.K j ∧ p.K j < pmax.K j) ∧
    (∀ j, pmin.n j < p.n j ∧ p.n j < pmax.n j) ∧
    (∀ j, pmin.e j < p.e j ∧ p.e j < pmax.e j) ∧
    (∀ j, pmin.chi j < p.chi j ∧ p.chi j < pmax.chi j) ∧
    (∀ j, pmin.omega j < p.omega j ∧ p.omega j < pmax.omega j)

/-- Positivity of the scale fields (`sigma`, `tau`, `K`, `n`). -/
def scalesPos {nobs npl : ℕ} (p : Params nobs npl) : Prop :=
  (∀ i, 0 < p.sigma i) ∧ (∀ i, 0 < p.tau i) ∧ (∀ j, 0 < p.K j) ∧ (∀ j, 0 < p.n j)

/-- Parameter vector with every `sigma`, `tau`, `K` and `n` value doubled
(the scaling considered by the Jeffreys scale-invariance property). -/
def doubleScales {nobs npl : ℕ} (p : Params nobs npl) : Params nobs npl :=
  { p with
    sigma := fun i => 2 * p.sigma i
    tau := fun i => 2 * p.tau i
    K := fun j => 2 * p.K j
    n := fun j => 2 * p.n j }

/-- Deviates consumed by `generate_initial_sample` for one
(temperature, walker) cell: `uV` is the value drawn by `np.random.uniform`
for `V`; `uTau`, `uSigma`, `uK`, `uN` are the log-space uniform deviates of
`draw_logarithmic` (the drawn value is their `exp`); `uE`, `uChi`, `uOmega`
are the uniform draws for `e`, `chi`, `omega`. -/
structure InitDraws (nobs npl : ℕ) where
  uV : Fin nobs → ℝ
  uTau : Fin nobs → ℝ
  uSigma : Fin nobs → ℝ
  uK : Fin npl → ℝ
  uN : Fin npl → ℝ
  uE : Fin npl → ℝ
  uChi : Fin npl → ℝ
  uOmega : Fin npl → ℝ

/-- Interval contracts of the draws in `generate_initial_sample`, from numpy's
documented behaviour (`uniform(low, high)` lands in `[low, high)`):
`V` in `[pmin.V, pmax.V)`; `tau` log-uniform in `[pmin.tau, pmax.tau)`;
`sigma` log-uniform in `[pmax.sigma/1000, pmax.sigma)` — note the lower limit
ignores `pmin.sigma`; `K` log-uniform in `[pmin.K[0], pmax.K[0])` (index 0 for
every planet); `n` log-uniform in `[pmin.n[j], pmax.n[j])` per planet; `e` and
`chi` uniform in `[0, 1)`; `omega` uniform in `[0, 2 pi)`. -/
def DrawsInRange {nobs npl : ℕ} (pmin pmax : Params nobs npl)
    (d : InitDraws nobs npl) : Prop :=
  (∀ i, pmin.V i ≤ d.uV i ∧ d.uV i < pmax.V i) ∧
    (∀ i, Real.log (pmin.tau i) ≤ d.uTau i ∧ d.uTau i < Real.log (pmax.tau i)) ∧
    (∀ i, Real.log (pmax.sigma i / 1000) ≤ d.uSigma i ∧
      d.uSigma i < Real.log (pmax.sigma i)) ∧
    (∀ j : Fin npl, Real.log (pmin.K ⟨0, j.pos⟩) ≤ d.uK j ∧
      d.uK j < Real.log (pmax.K ⟨0, j.pos⟩)) ∧
    (∀ j, Real.log (pmin.n j) ≤ d.uN j ∧ d.uN j < Real.log (pmax.n j)) ∧
    (∀ j, 0 ≤ d.uE j ∧ d.uE j < 1) ∧
    (∀ j, 0 ≤ d.uChi j ∧ d.uChi j < 1) ∧
    (∀ j, 0 ≤ d.uOmega j ∧ d.uOmega j < 2 * Real.pi)

/-- Positivity of the bound fields whose logarithm is taken by
`draw_logarithmic` inside `generate_initial_sample`. -/
def boundsPos {nobs npl : ℕ} (pmin pmax : Params nobs npl) : Prop :=
  (∀ i, 0 < pmin.tau i) ∧ (∀ i, 0 < pmax.sigma i) ∧
    (∀ j, 0 < pmin.K j) ∧ (∀ j, 0 < pmin.n j)

/-- Embedding of `np.sort(xs)[:, :, ::-1]` on the planet axis: ascending sort
followed by reversal, i.e. the values in non-increasing order. -/
def sortDescend (l : List ℝ) : List ℝ :=
  (List.insertionSort (· ≤ ·) l).reverse

/-- Embedding of `generate_initial_sample(pmin, pmax, ntemps, nwalkers)` for
one (temperature, walker) cell: the cells are filled from independent draws,
so a single cell is determined by its own deviates.  `V` is the uniform draw;
`tau`, `sigma`, `K` exponentiate their log-space deviates
(`draw_logarithmic`); the mean motions `n` are the exponentiated deviates
sorted into non-increasing order (`np.sort(...)[:, :, ::-1]`), so that the
periods increase; `e`, `chi`, `omega` are the uniform draws. -/
def generate_initial_sample {nobs npl : ℕ} (pmin pmax : Params nobs npl)
    (d : InitDraws nobs npl) : Params nobs npl :=
  { V := d.uV
    sigma := fun i => Real.exp (d.uSigma i)
    tau := fun i => Real.exp (d.uTau i)
    K := fun j => Real.exp (d.uK j)
    n := fun j => (sortDescend (List.ofFn fun j2 => Real.exp (d.uN j2))).getD j 0
    e := d.uE
    chi := d.uChi
    omega := d.uOmega }

/-- Embedding of `LogLikelihood.__call__(p)`: `rvModel` abstracts the external
orbit model `rv_model(t, p)` (per planet, per time); per observatory the code
forms `residual = rvs[i] - rvmodel` (the zero vector when `npl == 0`), the
covariance from `ts[i], sigma[i], tau[i]`, and accumulates
`correlated_gaussian_loglikelihood(residual, V[i] * ones, cov)`. -/
def logLikelihoodCall {nobs npl : ℕ} (m : Fin nobs → ℕ)
    (ts rvs : (i : Fin nobs) → Fin (m i) → ℝ)
    (rvModel : (i : Fin nobs) → Params nobs npl → Fin npl → Fin (m i) → ℝ)
    (p : Params nobs npl) : ℝ :=
  ∑ i, correlated_gaussian_loglikelihood
    (fun k => rvs i k - (if npl = 0 then 0 else ∑ j, rvModel i p j k))
    (fun _ => p.V i)
    (generate_covariance (ts i) (p.sigma i) (p.tau i))

/-- Index of the maximum of the flattened log-likelihood array
(`np.argmax(logls)` in `recenter_samples`). -/
def bestIdx {cells : ℕ} (logls : Fin (cells + 1) → ℝ) : Fin (cells + 1) :=
  Classical.choose
    (Finset.exists_max_image Finset.univ logls ⟨0, Finset.mem_univ 0⟩)

/-- Standard-normal deviates consumed by `recenter_samples` (one per output
field per cell); `np.random.normal(loc, scale)` is modelled as
`loc + scale * z` and `np.random.lognormal(mean, sigma)` as
`exp (mean + sigma * z)`. -/
structure RecDraws (nobs npl cells : ℕ) where
  zV : Fin cells → Fin nobs → ℝ
  zSigma : Fin cells → Fin nobs → ℝ
  zTau : Fin cells → Fin nobs → ℝ
  zK : Fin cells → Fin npl → ℝ
  zN : Fin cells → Fin npl → ℝ
  zChi : Fin cells → Fin npl → ℝ
  zE : Fin cells → Fin npl → ℝ
  zOmega : Fin cells → Fin npl → ℝ

/-- Embedding of `recenter_samples(ts, chains, logls, sigmafactor)`.  The chain
history is flattened to `cells + 1` parameter vectors with a parallel
log-likelihood array.  The code locates the best point `p0`, computes the
characteristic counts `ncycle = T / p0.P` and `ncorr = T / p0.tau`
(`T = ts[-1] - ts[0]`, and `nobs = len(ts)` is the number of time samples),
then `assert samples.npl == 1` and `assert samples.nobs == 1` — an
`AssertionError` (modelled by `none`) unless there is exactly one planet and
exactly one observatory — and only then produces the perturbed ensemble. -/
def recenter_samples {nobs npl cells m : ℕ} (ts : Fin (m + 1) → ℝ)
    (chains : Fin (cells + 1) → Params nobs npl)
    (logls : Fin (cells + 1) → ℝ) (d : RecDraws nobs npl (cells + 1))
    (sigmafactor : ℝ) : Option (Fin (cells + 1) → Params nobs npl) :=
  let sf := sigmafactor
  let T := ts (Fin.last m) - ts 0
  let p0 := chains (bestIdx logls)
  let ncycle := fun j => T / p0.P j
  let ncorr := fun i => T / p0.tau i
  let nts : ℝ := (m + 1 : ℕ)
  if npl = 1 ∧ nobs = 1 then
    some fun c =>
      { V := fun i => p0.V i + sf * p0.sigma i / Real.sqrt nts * d.zV c i
        sigma := fun i =>
          Real.exp (Real.log (p0.sigma i) + sf / Real.sqrt (ncorr i) * d.zSigma c i)
        tau := fun i =>
          Real.exp (Real.log (p0.tau i) + sf / Real.sqrt (ncorr i) * d.zTau c i)
        K := fun j => p0.K j + sf * p0.K j / Real.sqrt nts * d.zK c j
        n := fun j =>
          Real.exp (Real.log (p0.n j) + sf / Real.sqrt (ncycle j) * d.zN c j)
        chi := fun j =>
          Real.exp (Real.log (p0.chi j) + sf / Real.sqrt (ncycle j) * d.zChi c j)
        e := fun j =>
          Real.exp (Real.log (p0.e j) + sf / Real.sqrt (ncycle j) * d.zE c j)
        omega := fun j =>
          Real.exp (Real.log (p0.omega j) + sf / Real.sqrt (ncycle j) * d.zOmega c j) }
  else none

/-- Concrete bounds for the prior witnesses: one observatory, one planet. -/
def pminA : Params 1 1 :=
  { V := fun _ => -10, sigma := fun _ => 1 / 10, tau := fun _ => 1 / 10,
    K := fun _ => 1 / 10, n := fun _ => 1 / 10, e := fun _ => 0,
    chi := fun _ => 0, omega := fun _ => 0 }

/-- Concrete upper bounds paired with `pminA`. -/
def pmaxA : Params 1 1 :=
  { V := fun _ => 10, sigma := fun _ => 100, tau := fun _ => 100,
    K := fun _ => 100, n := fun _ => 100, e := fun _ => 1,
    chi := fun _ => 1, omega := fun _ => 10 }

/-- Concrete parameter vector strictly inside `(pminA, pmaxA)`. -/
def pA : Params 1 1 :=
  { V := fun _ => 0, sigma := fun _ => 1, tau := fun _ => 1,
    K := fun _ => 1, n := fun _ => 1, e := fun _ => 1 / 2,
    chi := fun _ => 1 / 2, omega := fun _ => 1 }

/-- Concrete lower bounds with two planets (for the period-ordering cases). -/
def pminB : Params 1 2 :=
  { V := fun _ => -1, sigma := fun _ => 1 / 2, tau := fun _ => 1 / 2,
    K := fun _ => 1 / 2, n := fun _ => 1 / 2, e := fun _ => 0,
    chi := fun _ => 0, omega := fun _ => 0 }

/-- Concrete upper bounds paired with `pminB`. -/
def pmaxB : Params 1 2 :=
  { V := fun _ => 1, sigma := fun _ => 2, tau := fun _ => 2,
    K := fun _ => 2, n := fun _ => 4, e := fun _ => 1,
    chi := fun _ => 1, omega := fun _ => 10 }

/-- Concrete two-planet parameter vector strictly inside `(pminB, pmaxB)` whose
mean motions increase, so its periods strictly decrease. -/
def pB : Params 1 2 :=
  { V := fun _ => 0, sigma := fun _ => 1, tau := fun _ => 1,
    K := fun _ => 1, n := ![1, 2], e := fun _ => 1 / 2,
    chi := fun _ => 1 / 2, omega := fun _ => 1 }

/-- Concrete deviates, all lying inside the draw intervals determined by
`pminB`/`pmaxB`, with `e` and `chi` drawn strictly inside `(0, 1)`. -/
def dI : InitDraws 1 2 :=
  { uV := fun _ => 0, uTau := fun _ => 0, uSigma := fun _ => 0,
    uK := fun _ => 0, uN := ![0, 1], uE := fun _ => 1 / 2,
    uChi := fun _ => 1 / 2, uOmega := fun _ => 1 }

/-- Concrete deviates like `dI` but with the `e` draw hitting the boundary
value `0`, which numpy's half-open `uniform(0, 1)` can produce. -/
def dI0 : InitDraws 1 2 :=
  { uV := fun _ => 0, uTau := fun _ => 0, uSigma := fun _ => 0,
    uK := fun _ => 0, uN := ![0, 1], uE := fun _ => 0,
    uChi := fun _ => 1 / 2, uOmega := fun _ => 1 }

/-- Concrete symmetric positive-definite matrix on which partial pivoting
performs a row interchange (the first-column maximum 2 sits in row 1) and the
elimination then produces the negative second pivot `-1/2`. -/
def covC2 : Matrix (Fin 2) (Fin 2) ℝ :=
  !![1, 2; 2, 5]

/-! Lemmas about the partially pivoted LU embedding. -/

/-- Defining property of the pivot choice: it maximizes the absolute value. -/
theorem pivotIdx_le {n : ℕ} (v : Fin (n + 1) → ℝ) (r : Fin (n + 1)) :
    |v r| ≤ |v (pivotIdx v)| :=
  (Classical.choose_spec
    (Finset.exists_max_image Finset.univ (fun r => |v r|)
      ⟨0, Finset.mem_univ 0⟩)).2 r (Finset.mem_univ r)

/-- After the pivot swap, the (0,0) entry dominates the first column. -/
theorem pivotSwap_col_max {n : ℕ} (M : Matrix (Fin (n + 1)) (Fin (n + 1)) ℝ)
    (r : Fin (n + 1)) : |pivotSwap M r 0| ≤ |pivotSwap M 0 0| := by
  unfold pivotSwap
  simp only [Matrix.submatrix_apply, id_eq, Equiv.swap_apply_left]
  exact pivotIdx_le (fun r => M r 0) _

/-- Row swapping preserves the absolute value of the determinant. -/
theorem abs_det_pivotSwap {n : ℕ} (M : Matrix (Fin (n + 1)) (Fin (n + 1)) ℝ) :
    |(pivotSwap M).det| = |M.det| := by
  unfold pivotSwap
  rw [Matrix.det_permute]
  rcases Int.units_eq_one_or
      (Equiv.Perm.sign (Equiv.swap 0 (pivotIdx fun r => M r 0))) with h | h <;>
    rw [h] <;> simp

/-- One step of Gaussian elimination: when the (0,0) entry dominates its
column, the determinant factors through the Schur complement. -/
theorem det_eq_pivot_mul_schur {n : ℕ} (M : Matrix (Fin (n + 1)) (Fin (n + 1)) ℝ)
    (hmax : ∀ r, |M r 0| ≤ |M 0 0|) :
    M.det = M 0 0 * (schurComp M).det := by
  by_cases ha : M 0 0 = 0
  · have hcol : ∀ r, M r 0 = 0 := by
      intro r
      have h := hmax r
      rw [ha, abs_zero] at h
      exact abs_eq_zero.mp (le_antisymm h (abs_nonneg _))
    rw [Matrix.det_eq_zero_of_column_eq_zero 0 hcol, ha, zero_mul]
  · have hdetR : M.det =
        (Matrix.of fun i j => (Fin.cases (M 0 j)
          (fun i2 => M i2.succ j - M i2.succ 0 / M 0 0 * M 0 j) i : ℝ)).det := by
      apply Matrix.det_eq_of_forall_row_eq_smul_add_const
        (fun i => (Fin.cases 0 (fun i2 => M i2.succ 0 / M 0 0) i : ℝ)) 0
        (by simp)
      intro i j
      refine Fin.cases ?_ (fun i2 => ?_) i <;> simp [Matrix.of_apply] <;> ring
    rw [hdetR, Matrix.det_succ_column_zero]
    rw [Finset.sum_eq_single 0]
    · have hsub : (Matrix.of fun i j => (Fin.cases (M 0 j)
          (fun i2 => M i2.succ j - M i2.succ 0 / M 0 0 * M 0 j) i : ℝ)).submatrix
            (Fin.succAbove 0) Fin.succ = schurComp M := by
        ext i j
        simp [Matrix.submatrix_apply, Matrix.of_apply, schurComp, Fin.succAbove_zero]
        ring
      rw [hsub]
      simp [Matrix.of_apply]
    · intro b _ hb
      obtain ⟨b2, rfl⟩ := Fin.eq_succ_of_ne_zero hb
      have hz : (Matrix.of fun i j => (Fin.cases (M 0 j)
          (fun i2 => M i2.succ j - M i2.succ 0 / M 0 0 * M 0 j) i : ℝ)) b2.succ 0 = 0 := by
        simp [Matrix.of_apply]
        field_simp
      rw [hz]
      ring
    · intro h
      exact absurd (Finset.mem_univ 0) h

/-- The pivots of the partially pivoted elimination multiply, up to sign, to
the determinant. -/
theorem abs_luPivots_prod {n : ℕ} :
    ∀ M : Matrix (Fin n) (Fin n) ℝ, |(luPivots M).prod| = |M.det| := by
  induction n with
  | zero => intro M; simp [luPivots, Matrix.det_isEmpty]
  | succ k ih =>
    intro M
    have hstep : luPivots M = pivotSwap M 0 0 :: luPivots (schurComp (pivotSwap M)) := rfl
    rw [hstep, List.prod_cons, abs_mul, ih, ← abs_mul,
      ← det_eq_pivot_mul_schur (pivotSwap M) (pivotSwap_col_max M), abs_det_pivotSwap]

/-- For a nonsingular matrix, every pivot is nonzero. -/
theorem luPivots_ne_zero {n : ℕ} (M : Matrix (Fin n) (Fin n) ℝ)
    (hdet : M.det ≠ 0) : ∀ x ∈ luPivots M, x ≠ 0 := by
  intro x hx hx0
  apply hdet
  have hprod : (luPivots M).prod = 0 := List.prod_eq_zero (hx0 ▸ hx)
  have h2 := abs_luPivots_prod M
  rw [hprod, abs_zero] at h2
  exact abs_eq_zero.mp h2.symm

/-- Sum of logarithms of a list of nonzero reals. -/
theorem list_sum_log {l : List ℝ} (h : ∀ x ∈ l, x ≠ 0) :
    (l.map Real.log).sum = Real.log l.prod := by
  induction l with
  | nil => simp
  | cons a t ih =>
    have ht : ∀ x ∈ t, x ≠ 0 := fun x hx => h x (List.mem_cons_of_mem a hx)
    have htp : t.prod ≠ 0 := fun h0 => ht 0 (List.prod_eq_zero_iff.mp h0) rfl
    simp only [List.map_cons, List.sum_cons, List.prod_cons]
    rw [ih ht, Real.log_mul (h a (List.mem_cons_self a t)) htp]

/-- Correctness of the substitution solve: for a nonsingular matrix the
vector returned by `luSolve` solves the linear system exactly. -/
theorem luSolve_mulVec {n : ℕ} :
    ∀ (M : Matrix (Fin n) (Fin n) ℝ) (b : Fin n → ℝ), M.det ≠ 0 →
      M.mulVec (luSolve M b) = b := by
  induction n with
  | zero =>
    intro M b _
    funext i
    exact i.elim0
  | succ k ih =>
    intro M b hdet
    set p := pivotIdx (fun r => M r 0) with hp
    set Ms := pivotSwap M with hMs
    set bs := fun i => b (Equiv.swap 0 p i) with hbs
    set S := schurComp Ms with hS
    set rhs := fun i : Fin k => bs i.succ - Ms i.succ 0 * bs 0 / Ms 0 0 with hrhs
    set z := luSolve S rhs with hz
    set z0 := (bs 0 - ∑ j, Ms 0 j.succ * z j) / Ms 0 0 with hz0
    have hsolve : luSolve M b = Fin.cases z0 z := rfl
    have habs : |M.det| = |Ms 0 0| * |S.det| := by
      rw [← abs_luPivots_prod M]
      have hstep : luPivots M = Ms 0 0 :: luPivots S := rfl
      rw [hstep, List.prod_cons, abs_mul, abs_luPivots_prod]
    have ha : Ms 0 0 ≠ 0 := by
      intro h0
      apply hdet
      rw [← abs_eq_zero, habs, h0, abs_zero, zero_mul]
    have hSdet : S.det ≠ 0 := by
      intro h0
      apply hdet
      rw [← abs_eq_zero, habs, h0, abs_zero, mul_zero]
    have hIH2 : ∀ i2 : Fin k, (∑ j, S i2 j * z j) = rhs i2 := by
      intro i2
      have h := congrFun (ih S rhs hSdet) i2
      simpa [Matrix.mulVec, Matrix.dotProduct] using h
    have hmain : ∀ i, (∑ j, Ms i j * Fin.cases z0 z j) = bs i := by
      intro i
      refine Fin.cases ?_ (fun i2 => ?_) i
      · rw [Fin.sum_univ_succ]
        simp only [Fin.cases_zero, Fin.cases_succ]
        rw [hz0]
        field_simp
      · rw [Fin.sum_univ_succ]
        simp only [Fin.cases_zero, Fin.cases_succ]
        have hexp : (∑ j, Ms i2.succ j.succ * z j)
            = (∑ j, S i2 j * z j)
              + Ms i2.succ 0 / Ms 0 0 * (∑ j, Ms 0 j.succ * z j) := by
          rw [Finset.mul_sum, ← Finset.sum_add_distrib]
          refine Finset.sum_congr rfl (fun j _ => ?_)
          rw [hS]
          simp only [schurComp, Matrix.of_apply]
          ring
        rw [hexp, hIH2 i2]
        simp only [hrhs]
        rw [hz0]
        field_simp
        ring
    funext r
    have hr : Equiv.swap 0 p (Equiv.swap 0 p r) = r := Equiv.swap_apply_self _ _ _
    have hline : M.mulVec (luSolve M b) r
        = ∑ j, Ms (Equiv.swap 0 p r) j * Fin.cases z0 z j := by
      rw [hsolve]
      simp only [Matrix.mulVec, Matrix.dotProduct]
      refine Finset.sum_congr rfl (fun j _ => ?_)
      rw [hMs]
      simp only [pivotSwap, Matrix.submatrix_apply, id_eq, ← hp, hr]
    rw [hline, hmain]
    rw [hbs]
    simp only [hr]

/-- Claim C1, counterexample: on the one-point time array `[0]` with
`sigma0 = 2`, `tau = 1`, the Covariance Builder returns the entry `4`, not the
claimed `sigma0 * exp(-|t_i - t_j| / tau) = 2`: the code computes
`sigma*sigma*exp(...)`, i.e. it does square `sigma`. -/
theorem C1_counterexample :
    generate_covariance (fun _ : Fin 1 => (0 : ℝ)) 2 1 0 0
      ≠ 2 * Real.exp (-|(0 : ℝ) - 0| / 1) := by
  norm_num [generate_covariance]

/-- Claim C1 (amended): for every time array of length `ndim ≥ 1` and scalars
`sigma0 > 0`, `tau > 0`, the Covariance Builder returns the `ndim × ndim`
matrix whose (i,j) entry is `sigma0 ^ 2 * exp(-|t_i - t_j| / tau)` — the
marginal variance is the square of `sigma0`, not `sigma0` itself. -/
theorem C1_generate_covariance_entry {n : ℕ} (ts : Fin n → ℝ) (sigma tau : ℝ)
    (hn : 1 ≤ n) (hs : 0 < sigma) (ht : 0 < tau) (i j : Fin n) :
    generate_covariance ts sigma tau i j
      = sigma ^ 2 * Real.exp (-|ts i - ts j| / tau) := by
  simp [generate_covariance, pow_two]

/-- Witness for C1 at a concrete input. -/
theorem C1_generate_covariance_entry_witness :
    (1 : ℕ) ≤ 1 ∧ (0 : ℝ) < 1 ∧ (0 : ℝ) < 1 ∧
      generate_covariance (fun _ : Fin 1 => (0 : ℝ)) 1 1 0 0
        = 1 ^ 2 * Real.exp (-|(0 : ℝ) - 0| / 1) :=
  ⟨le_refl 1, one_pos, one_pos,
    C1_generate_covariance_entry (fun _ : Fin 1 => (0 : ℝ)) 1 1 (le_refl 1)
      one_pos one_pos 0 0⟩

/-- Evaluation of the pivot swap on a 1×1 matrix. -/
theorem pivotSwap_fin_one (M : Matrix (Fin 1) (Fin 1) ℝ) : pivotSwap M = M := by
  unfold pivotSwap
  have h : pivotIdx (fun r => M r 0) = 0 := Fin.eq_zero _
  rw [h, Equiv.swap_self]
  ext i j
  simp [Matrix.submatrix_apply]

/-- Evaluation of the pivot sequence on a 1×1 matrix. -/
theorem luPivots_fin_one (M : Matrix (Fin 1) (Fin 1) ℝ) :
    luPivots M = [M 0 0] := by
  have hstep : luPivots M
      = pivotSwap M 0 0 :: luPivots (schurComp (pivotSwap M)) := rfl
  rw [hstep, pivotSwap_fin_one]
  simp [luPivots]

/-- The partial-pivoting choice on the first column of `covC2` is row 1,
where the unique absolute maximum 2 of the column (1, 2) sits. -/
theorem pivotIdx_covC2 : pivotIdx (fun r => covC2 r 0) = 1 := by
  have htwo : ∀ i : Fin 2, i = 0 ∨ i = 1 := by decide
  rcases htwo (pivotIdx (fun r => covC2 r 0)) with h0 | h1
  · exfalso
    have h := pivotIdx_le (fun r => covC2 r 0) 1
    rw [h0] at h
    have e1 : covC2 1 0 = 2 := by norm_num [covC2]
    have e0 : covC2 0 0 = 1 := by norm_num [covC2]
    rw [e1, e0] at h
    rw [abs_of_pos (by norm_num : (0 : ℝ) < 2),
      abs_of_pos (by norm_num : (0 : ℝ) < 1)] at h
    norm_num at h
  · exact h1

/-- Pivot sequence of `getrf` on the positive-definite `covC2`: the row
interchange brings 2 to the pivot position and the Schur complement is
`2 - 1 * 5 / 2 = -1/2`, so the second pivot — the second diagonal entry of the
returned `lu` factor — is negative. -/
theorem luPivots_covC2 : luPivots covC2 = [2, -(1 / 2 : ℝ)] := by
  have hswap : pivotSwap covC2 = !![2, 5; 1, 2] := by
    unfold pivotSwap
    rw [pivotIdx_covC2]
    ext i j
    fin_cases i <;> fin_cases j <;>
      simp [covC2, Matrix.submatrix_apply, Equiv.swap_apply_left,
        Equiv.swap_apply_right]
  have hstep : luPivots covC2
      = pivotSwap covC2 0 0 :: luPivots (schurComp (pivotSwap covC2)) := rfl
  rw [hstep, hswap]
  have hschur : schurComp (!![2, 5; 1, 2] : Matrix (Fin 2) (Fin 2) ℝ)
      = !![-(1 / 2 : ℝ)] := by
    ext i j
    fin_cases i
    fin_cases j
    simp [schurComp, Matrix.of_apply]
    norm_num
  rw [hschur, luPivots_fin_one]
  norm_num

/-- The matrix `covC2 = [[1, 2], [2, 5]]` is symmetric positive-definite:
its quadratic form is `(x0 + 2 x1)^2 + x1^2`. -/
theorem posDef_covC2 : Matrix.PosDef covC2 := by
  constructor
  · show covC2.conjTranspose = covC2
    ext i j
    fin_cases i <;> fin_cases j <;>
      simp [covC2, Matrix.conjTranspose_apply]
  · intro x hx
    have hsum : Matrix.dotProduct (star x) (covC2.mulVec x)
        = (x 0 + 2 * x 1) ^ 2 + x 1 ^ 2 := by
      simp [covC2, Matrix.dotProduct, Matrix.mulVec, Fin.sum_univ_two]
      ring
    rw [hsum]
    rcases eq_or_ne (x 1) 0 with h1 | h1
    · have h0 : x 0 ≠ 0 := by
        intro h0
        apply hx
        funext i
        fin_cases i
        · exact h0
        · exact h1
      rw [h1]
      have hpos : 0 < x 0 ^ 2 := sq_pos_of_ne_zero h0
      nlinarith
    · have hpos : 0 < x 1 ^ 2 := sq_pos_of_ne_zero h1
      nlinarith [sq_nonneg (x 0 + 2 * x 1)]

/-- Claim C2, counterexample: the symmetric positive-definite covariance
`covC2 = [[1, 2], [2, 5]]` (det 1) lies in the claimed domain, yet partial
pivoting swaps rows (|2| > |1| in column 0) and the diagonal of the `lu`
factor is `[2, -1/2]`.  The code computes `np.sum(np.log(lambdas))` with the
negative pivot `-1/2`, for which `np.log` — the logarithm, defined only on
positive arguments — is NaN, so the program returns NaN here and not the
claimed exact log-density value.  (The previous totalized reading
`Real.log x = log |x|` is not the program's `np.log` on negative arguments;
the amended C2 therefore restricts to covariances with all pivots positive,
where the two agree.) -/
theorem C2_counterexample :
    Matrix.PosDef covC2 ∧ luPivots covC2 = [2, -(1 / 2 : ℝ)] ∧
      ¬∀ x ∈ luPivots covC2, 0 < x := by
  refine ⟨posDef_covC2, luPivots_covC2, ?_⟩
  intro h
  have := h (-(1 / 2 : ℝ)) (by rw [luPivots_covC2]; simp)
  norm_num at this

/-- Claim C2 (amended): for a symmetric positive-definite covariance all of
whose partial-pivoting LU pivots are positive — the domain on which the
`np.log` applied to the pivot sequence is the genuine logarithm (a
pivoting-induced negative pivot makes the program return NaN instead, see the
counterexample) — the Correlated Likelihood Evaluator returns exactly the
multivariate-normal log-density
`-(ndim/2) log(2 pi) - 0.5 log(det C) - 0.5 (x-mu)^T C⁻¹ (x-mu)`; the value of
`log(det C)` arises as the sum of the logs of the LU pivots and the quadratic
form from the linear solve — see the definition of
`correlated_gaussian_loglikelihood`, which performs no matrix inversion. -/
theorem C2_loglikelihood_exact {n : ℕ} (xs means : Fin n → ℝ)
    (cov : Matrix (Fin n) (Fin n) ℝ) (hpd : cov.PosDef)
    (hpiv : ∀ x ∈ luPivots cov, 0 < x) :
    correlated_gaussian_loglikelihood xs means cov
      = -((n : ℝ) / 2) * Real.log (2 * Real.pi) - 0.5 * Real.log cov.det
        - 0.5 * ∑ i, (xs i - means i)
            * (cov⁻¹.mulVec (fun k => xs k - means k)) i := by
  have hdet : 0 < cov.det := hpd.det_pos
  have hunit : IsUnit cov.det := isUnit_iff_ne_zero.mpr (ne_of_gt hdet)
  have hsolve : cov⁻¹.mulVec (fun k => xs k - means k)
      = luSolve cov (fun k => xs k - means k) := by
    have h := luSolve_mulVec cov (fun k => xs k - means k) (ne_of_gt hdet)
    calc cov⁻¹.mulVec (fun k => xs k - means k)
        = cov⁻¹.mulVec (cov.mulVec (luSolve cov (fun k => xs k - means k))) := by
          rw [h]
      _ = luSolve cov (fun k => xs k - means k) := by
          rw [Matrix.mulVec_mulVec, Matrix.nonsing_inv_mul cov hunit,
            Matrix.one_mulVec]
  have hprod_pos : 0 < (luPivots cov).prod := List.prod_pos hpiv
  have hprod : (luPivots cov).prod = cov.det := by
    have habs := abs_luPivots_prod cov
    rw [abs_of_pos hprod_pos, abs_of_pos hdet] at habs
    exact habs
  have hlogsum : ((luPivots cov).map Real.log).sum = Real.log cov.det := by
    rw [list_sum_log (fun x hx => ne_of_gt (hpiv x hx)), hprod]
  rw [hsolve]
  unfold correlated_gaussian_loglikelihood
  rw [hlogsum]
  have hsum : (∑ i, (xs i - means i) * luSolve cov (fun k => xs k - means k) i / 2)
      = 0.5 * ∑ i, (xs i - means i) * luSolve cov (fun k => xs k - means k) i := by
    rw [Finset.mul_sum]
    refine Finset.sum_congr rfl (fun i _ => ?_)
    ring
  rw [hsum]
  ring

/-- Witness for C2 at the 1×1 identity covariance, whose pivot list is `[1]`
— both the positive-definiteness and the positive-pivot hypotheses hold. -/
theorem C2_loglikelihood_exact_witness :
    (Matrix.PosDef (1 : Matrix (Fin 1) (Fin 1) ℝ) ∧
        ∀ x ∈ luPivots (1 : Matrix (Fin 1) (Fin 1) ℝ), 0 < x) ∧
      correlated_gaussian_loglikelihood (fun _ : Fin 1 => (1 : ℝ)) (fun _ => 0)
          (1 : Matrix (Fin 1) (Fin 1) ℝ)
        = -(((1 : ℕ) : ℝ) / 2) * Real.log (2 * Real.pi)
          - 0.5 * Real.log (1 : Matrix (Fin 1) (Fin 1) ℝ).det
          - 0.5 * ∑ i, ((fun _ : Fin 1 => (1 : ℝ)) i - (fun _ : Fin 1 => (0 : ℝ)) i)
              * ((1 : Matrix (Fin 1) (Fin 1) ℝ)⁻¹.mulVec
                  (fun k => (fun _ : Fin 1 => (1 : ℝ)) k
                    - (fun _ : Fin 1 => (0 : ℝ)) k)) i := by
  have hpiv : ∀ x ∈ luPivots (1 : Matrix (Fin 1) (Fin 1) ℝ), 0 < x := by
    intro x hx
    rw [luPivots_fin_one] at hx
    simp only [Matrix.one_apply_eq, List.mem_singleton] at hx
    rw [hx]
    norm_num
  exact ⟨⟨Matrix.PosDef.one, hpiv⟩,
    C2_loglikelihood_exact (fun _ : Fin 1 => (1 : ℝ)) (fun _ => 0) 1
      Matrix.PosDef.one hpiv⟩

/-- Claim C3, failing input: for the singular 1×1 covariance `[[0]]` (e.g.
degenerate `sigma0 = 0`) with residual `[1]`, the Correlated Likelihood
Evaluator performs no positive-definiteness check at all: it feeds the zero
pivot to `log` and to a division and returns the finite junk value
`-log(2 pi) / 2` under the exact-real conventions `log 0 = 0`, `x / 0 = 0`
(under IEEE float semantics the same path produces `inf`/`NaN`), instead of
returning `-infinity` or raising a caught `SingularCovariance` error as the
spec requires. -/
theorem C3_no_singularity_guard :
    (0 : Matrix (Fin 1) (Fin 1) ℝ).det = 0 ∧
      correlated_gaussian_loglikelihood (fun _ : Fin 1 => (1 : ℝ)) (fun _ => 0)
          (0 : Matrix (Fin 1) (Fin 1) ℝ)
        = -Real.log (2 * Real.pi) * (1 / 2) := by
  constructor
  · simp [Matrix.det_fin_one]
  · have hprf : luPivots (0 : Matrix (Fin 1) (Fin 1) ℝ) = [0] := by
      have hstep : luPivots (0 : Matrix (Fin 1) (Fin 1) ℝ)
          = pivotSwap (0 : Matrix (Fin 1) (Fin 1) ℝ) 0 0
            :: luPivots (schurComp (pivotSwap (0 : Matrix (Fin 1) (Fin 1) ℝ))) := rfl
      rw [hstep, pivotSwap_fin_one]
      simp [luPivots]
    have hsol : luSolve (0 : Matrix (Fin 1) (Fin 1) ℝ)
        (fun k => (fun _ : Fin 1 => (1 : ℝ)) k - (fun _ : Fin 1 => (0 : ℝ)) k) 0
        = 0 := by
      have h : pivotIdx (fun r => (0 : Matrix (Fin 1) (Fin 1) ℝ) r 0) = 0 :=
        Fin.eq_zero _
      show (_ : ℝ) = 0
      simp [luSolve, pivotSwap_fin_one, h]
    unfold correlated_gaussian_loglikelihood
    rw [hprf]
    rw [Fin.sum_univ_one, hsol]
    simp

/-- Strict interiority rules out both rejection tests of the bound check. -/
theorem strictlyInside_not_reject {nobs npl : ℕ} {pmin pmax p : Params nobs npl}
    (h : strictlyInside pmin pmax p) : ¬(anyLe p pmin ∨ anyGe p pmax) := by
  obtain ⟨h1, h2, h3, h4, h5, h6, h7, h8⟩ := h
  rintro (hle | hge)
  · rcases hle with ⟨i, hi⟩ | ⟨i, hi⟩ | ⟨i, hi⟩ | ⟨j, hj⟩ | ⟨j, hj⟩ | ⟨j, hj⟩ |
      ⟨j, hj⟩ | ⟨j, hj⟩
    exacts [absurd hi (not_le.mpr (h1 i).1), absurd hi (not_le.mpr (h2 i).1),
      absurd hi (not_le.mpr (h3 i).1), absurd hj (not_le.mpr (h4 j).1),
      absurd hj (not_le.mpr (h5 j).1), absurd hj (not_le.mpr (h6 j).1),
      absurd hj (not_le.mpr (h7 j).1), absurd hj (not_le.mpr (h8 j).1)]
  · rcases hge with ⟨i, hi⟩ | ⟨i, hi⟩ | ⟨i, hi⟩ | ⟨j, hj⟩ | ⟨j, hj⟩ | ⟨j, hj⟩ |
      ⟨j, hj⟩ | ⟨j, hj⟩
    exacts [absurd hi (not_le.mpr (h1 i).2), absurd hi (not_le.mpr (h2 i).2),
      absurd hi (not_le.mpr (h3 i).2), absurd hj (not_le.mpr (h4 j).2),
      absurd hj (not_le.mpr (h5 j).2), absurd hj (not_le.mpr (h6 j).2),
      absurd hj (not_le.mpr (h7 j).2), absurd hj (not_le.mpr (h8 j).2)]

/-- For an accepted parameter vector the prior returns the real density. -/
theorem logPrior_eq_density {nobs npl : ℕ} {pmin pmax p : Params nobs npl}
    (hin : strictlyInside pmin pmax p)
    (hord : ¬(1 < npl ∧ periodsOutOfOrder p)) :
    logPrior pmin pmax p = ((prDensity p : ℝ) : EReal) := by
  unfold logPrior
  rw [if_neg (strictlyInside_not_reject hin), if_neg hord]

/-- Claim C4, counterexample: a two-planet parameter vector strictly inside
valid bounds, with positive scale fields, on which the Prior Evaluator
nevertheless returns `-infinity`, because its periods are strictly decreasing
and the identifiability ordering check fires. -/
theorem C4_counterexample :
    validBounds pminB pmaxB ∧ strictlyInside pminB pmaxB pB ∧ scalesPos pB ∧
      logPrior pminB pmaxB pB = (⊥ : EReal) := by
  have hP : pB.P 1 < pB.P 0 := by
    simp only [Params.P, pB, Matrix.cons_val_one, Matrix.head_cons,
      Matrix.cons_val_zero]
    rw [div_one]
    nlinarith [Real.pi_pos]
  have hin : strictlyInside pminB pmaxB pB := by
    refine ⟨?_, ?_, ?_, ?_, ?_, ?_, ?_, ?_⟩ <;>
      simp [pminB, pmaxB, pB, Fin.forall_fin_two] <;> norm_num
  refine ⟨?_, hin, ?_, ?_⟩
  · refine ⟨?_, ?_, ?_, ?_, ?_, ?_, ?_, ?_⟩ <;>
      simp [pminB, pmaxB, Fin.forall_fin_two] <;> norm_num
  · refine ⟨?_, ?_, ?_, ?_⟩ <;> simp [pB, Fin.forall_fin_two] <;> norm_num
  · unfold logPrior
    rw [if_neg (strictlyInside_not_reject hin)]
    rw [if_pos ⟨by norm_num, 0, 1, by norm_num, hP⟩]

/-- Claim C4 (amended): for every valid bounds pair, the Prior Evaluator
returns `-infinity` for every vector with some field at or beyond the bounds,
and returns a finite value for every vector strictly inside the bounds with
positive scale fields whose planet periods are, when `npl > 1`, in
non-decreasing order — the ordering check makes the unamended finiteness
statement false. -/
theorem C4_prior_bound_check {nobs npl : ℕ} (pmin pmax : Params nobs npl)
    (hv : validBounds pmin pmax) :
    (∀ p, anyLe p pmin ∨ anyGe p pmax → logPrior pmin pmax p = (⊥ : EReal)) ∧
      (∀ p, strictlyInside pmin pmax p → scalesPos p → ¬periodsOutOfOrder p →
        ∃ r : ℝ, logPrior pmin pmax p = (r : EReal)) := by
  constructor
  · intro p hp
    unfold logPrior
    rw [if_pos hp]
  · intro p hin hsc hord
    exact ⟨prDensity p, logPrior_eq_density hin (fun h => hord h.2)⟩

/-- Witness for C4 at concrete valid bounds. -/
theorem C4_prior_bound_check_witness :
    validBounds pminA pmaxA ∧
      ((∀ p, anyLe p pminA ∨ anyGe p pmaxA →
          logPrior pminA pmaxA p = (⊥ : EReal)) ∧
        (∀ p, strictlyInside pminA pmaxA p → scalesPos p →
          ¬periodsOutOfOrder p →
          ∃ r : ℝ, logPrior pminA pmaxA p = (r : EReal))) := by
  have hv : validBounds pminA pmaxA := by
    refine ⟨?_, ?_, ?_, ?_, ?_, ?_, ?_, ?_⟩ <;>
      simp [pminA, pmaxA] <;> norm_num
  exact ⟨hv, C4_prior_bound_check pminA pmaxA hv⟩

/-- Claim C5: doubling every `sigma0`, `tau`, `K` and `n` field of an accepted
parameter vector (the doubled vector remaining strictly inside bounds) shifts
the log-prior by exactly `-(2*nobs + 2*npl) * log 2`, independently of the
field values. -/
theorem C5_jeffreys_scaling {nobs npl : ℕ} (pmin pmax p : Params nobs npl)
    (hin : strictlyInside pmin pmax p)
    (hin2 : strictlyInside pmin pmax (doubleScales p))
    (hsc : scalesPos p) (hord : ¬periodsOutOfOrder p) :
    logPrior pmin pmax (doubleScales p)
      = logPrior pmin pmax p
        + ((-(((2 * nobs + 2 * npl : ℕ) : ℝ)) * Real.log 2 : ℝ) : EReal) := by
  obtain ⟨hs1, hs2, hs3, hs4⟩ := hsc
  have hord2 : ¬periodsOutOfOrder (doubleScales p) := by
    rintro ⟨i, j, hij, hlt⟩
    apply hord
    refine ⟨i, j, hij, ?_⟩
    have hni := hs4 i
    have hnj := hs4 j
    simp only [Params.P, doubleScales] at hlt ⊢
    rw [div_lt_div_iff (mul_pos two_pos hnj) (mul_pos two_pos hni)] at hlt
    rw [div_lt_div_iff hnj hni]
    nlinarith
  have hsum1 : (∑ i, Real.log (2 * p.sigma i))
      = nobs * Real.log 2 + ∑ i, Real.log (p.sigma i) := by
    rw [Finset.sum_congr rfl
      (fun i _ => Real.log_mul two_ne_zero (ne_of_gt (hs1 i)))]
    rw [Finset.sum_add_distrib, Finset.sum_const, Finset.card_univ,
      Fintype.card_fin, nsmul_eq_mul]
  have hsum2 : (∑ i, Real.log (2 * p.tau i))
      = nobs * Real.log 2 + ∑ i, Real.log (p.tau i) := by
    rw [Finset.sum_congr rfl
      (fun i _ => Real.log_mul two_ne_zero (ne_of_gt (hs2 i)))]
    rw [Finset.sum_add_distrib, Finset.sum_const, Finset.card_univ,
      Fintype.card_fin, nsmul_eq_mul]
  have hsum3 : (∑ j, Real.log (2 * p.K j))
      = npl * Real.log 2 + ∑ j, Real.log (p.K j) := by
    rw [Finset.sum_congr rfl
      (fun j _ => Real.log_mul two_ne_zero (ne_of_gt (hs3 j)))]
    rw [Finset.sum_add_distrib, Finset.sum_const, Finset.card_univ,
      Fintype.card_fin, nsmul_eq_mul]
  have hsum4 : (∑ j, Real.log (2 * p.n j))
      = npl * Real.log 2 + ∑ j, Real.log (p.n j) := by
    rw [Finset.sum_congr rfl
      (fun j _ => Real.log_mul two_ne_zero (ne_of_gt (hs4 j)))]
    rw [Finset.sum_add_distrib, Finset.sum_const, Finset.card_univ,
      Fintype.card_fin, nsmul_eq_mul]
  have hdens : prDensity (doubleScales p)
      = prDensity p - ((2 * nobs + 2 * npl : ℕ) : ℝ) * Real.log 2 := by
    unfold prDensity doubleScales
    simp only
    rw [hsum1, hsum2, hsum3, hsum4]
    push_cast
    ring
  rw [logPrior_eq_density hin2 (fun h => hord2 h.2),
    logPrior_eq_density hin (fun h => hord h.2), hdens]
  rw [← EReal.coe_add]
  exact congrArg Real.toEReal (by ring)

/-- Witness for C5 at a concrete accepted point. -/
theorem C5_jeffreys_scaling_witness :
    strictlyInside pminA pmaxA pA ∧
      strictlyInside pminA pmaxA (doubleScales pA) ∧ scalesPos pA ∧
      ¬periodsOutOfOrder pA ∧
      logPrior pminA pmaxA (doubleScales pA)
        = logPrior pminA pmaxA pA
          + ((-(((2 * 1 + 2 * 1 : ℕ) : ℝ)) * Real.log 2 : ℝ) : EReal) := by
  have h1 : strictlyInside pminA pmaxA pA := by
    refine ⟨?_, ?_, ?_, ?_, ?_, ?_, ?_, ?_⟩ <;>
      simp [pminA, pmaxA, pA] <;> norm_num
  have h2 : strictlyInside pminA pmaxA (doubleScales pA) := by
    refine ⟨?_, ?_, ?_, ?_, ?_, ?_, ?_, ?_⟩ <;>
      simp [pminA, pmaxA, pA, doubleScales] <;> norm_num
  have h3 : scalesPos pA := by
    refine ⟨?_, ?_, ?_, ?_⟩ <;> simp [pA] <;> norm_num
  have h4 : ¬periodsOutOfOrder pA := by
    rintro ⟨i, j, hij, -⟩
    fin_cases i
    fin_cases j
    simp at hij
  exact ⟨h1, h2, h3, h4, C5_jeffreys_scaling pminA pmaxA pA h1 h2 h3 h4⟩

/-- Length is preserved by the descending sort. -/
theorem sortDescend_length (l : List ℝ) : (sortDescend l).length = l.length := by
  unfold sortDescend
  rw [List.length_reverse, List.length_insertionSort]

/-- Membership is preserved by the descending sort. -/
theorem sortDescend_mem {x : ℝ} {l : List ℝ} : x ∈ sortDescend l ↔ x ∈ l := by
  unfold sortDescend
  rw [List.mem_reverse]
  exact (List.perm_insertionSort _ l).mem_iff

/-- The descending sort is pairwise non-increasing. -/
theorem sortDescend_pairwise (l : List ℝ) :
    (sortDescend l).Pairwise (fun a b => b ≤ a) := by
  unfold sortDescend
  rw [List.pairwise_reverse]
  exact List.sorted_insertionSort _ l

/-- Interval transport along `exp` for the log-uniform draws. -/
theorem exp_dev_mem {lo hi u : ℝ} (hlo : 0 < lo) (hlohi : lo < hi)
    (h1 : Real.log lo ≤ u) (h2 : u < Real.log hi) :
    lo ≤ Real.exp u ∧ Real.exp u < hi := by
  have hhi : 0 < hi := lt_trans hlo hlohi
  constructor
  · calc lo = Real.exp (Real.log lo) := (Real.exp_log hlo).symm
      _ ≤ Real.exp u := Real.exp_le_exp.mpr h1
  · calc Real.exp u < Real.exp (Real.log hi) := Real.exp_lt_exp.mpr h2
      _ = hi := Real.exp_log hhi

/-- Access to the sorted mean-motion field of an initializer output. -/
theorem initial_n_get {nobs npl : ℕ} (pmin pmax : Params nobs npl)
    (d : InitDraws nobs npl) (j : Fin npl) :
    ∀ h : (j : ℕ) < (sortDescend (List.ofFn fun j2 => Real.exp (d.uN j2))).length,
      (generate_initial_sample pmin pmax d).n j
        = (sortDescend (List.ofFn fun j2 => Real.exp (d.uN j2))).get ⟨j, h⟩ := by
  intro h
  simp only [generate_initial_sample]
  exact List.getD_eq_get _ _ h

/-- Every mean motion produced by the initializer is one of the exponentiated
deviates; in particular it is positive. -/
theorem initial_n_mem {nobs npl : ℕ} (pmin pmax : Params nobs npl)
    (d : InitDraws nobs npl) (j : Fin npl) :
    ∃ j2, (generate_initial_sample pmin pmax d).n j = Real.exp (d.uN j2) := by
  have hlen : (j : ℕ) < (sortDescend (List.ofFn fun j2 => Real.exp (d.uN j2))).length := by
    rw [sortDescend_length, List.length_ofFn]
    exact j.isLt
  rw [initial_n_get pmin pmax d j hlen]
  have hmem := List.get_mem (sortDescend (List.ofFn fun j2 => Real.exp (d.uN j2))) _ hlen
  rw [sortDescend_mem] at hmem
  obtain ⟨j2, hj2⟩ := (List.mem_ofFn _ _).mp hmem
  exact ⟨j2, hj2.symm⟩

/-- Claim C6 (amended): the bounds-driven Ensemble Initializer guarantees only
the half-open draw intervals: `V` and `tau` land in `[pmin, pmax)`, `sigma` in
`[pmax.sigma/1000, pmax.sigma)` (the lower prior bound is not consulted), `K`
in `[pmin.K[0], pmax.K[0])`, each mean motion in some planet's
`[pmin.n, pmax.n)`, `e` and `chi` in `[0, 1)` and `omega` in `[0, 2 pi)`
regardless of the supplied bounds.  Lower boundary values are attainable, so
strict interiority in `(pmin, pmax)` — and hence acceptance by the Prior
Evaluator — is not guaranteed. -/
theorem C6_initializer_ranges {nobs npl : ℕ} (pmin pmax : Params nobs npl)
    (d : InitDraws nobs npl) (hv : validBounds pmin pmax)
    (hbp : boundsPos pmin pmax) (hr : DrawsInRange pmin pmax d) :
    (∀ i, pmin.V i ≤ (generate_initial_sample pmin pmax d).V i ∧
      (generate_initial_sample pmin pmax d).V i < pmax.V i) ∧
    (∀ i, pmin.tau i ≤ (generate_initial_sample pmin pmax d).tau i ∧
      (generate_initial_sample pmin pmax d).tau i < pmax.tau i) ∧
    (∀ i, pmax.sigma i / 1000 ≤ (generate_initial_sample pmin pmax d).sigma i ∧
      (generate_initial_sample pmin pmax d).sigma i < pmax.sigma i) ∧
    (∀ j : Fin npl, pmin.K ⟨0, j.pos⟩ ≤ (generate_initial_sample pmin pmax d).K j ∧
      (generate_initial_sample pmin pmax d).K j < pmax.K ⟨0, j.pos⟩) ∧
    (∀ j, ∃ j2, pmin.n j2 ≤ (generate_initial_sample pmin pmax d).n j ∧
      (generate_initial_sample pmin pmax d).n j < pmax.n j2) ∧
    (∀ j, 0 ≤ (generate_initial_sample pmin pmax d).e j ∧
      (generate_initial_sample pmin pmax d).e j < 1) ∧
    (∀ j, 0 ≤ (generate_initial_sample pmin pmax d).chi j ∧
      (generate_initial_sample pmin pmax d).chi j < 1) ∧
    (∀ j, 0 ≤ (generate_initial_sample pmin pmax d).omega j ∧
      (generate_initial_sample pmin pmax d).omega j < 2 * Real.pi) := by
  obtain ⟨hrV, hrTau, hrSigma, hrK, hrN, hrE, hrChi, hrOmega⟩ := hr
  obtain ⟨hbTau, hbSigma, hbK, hbN⟩ := hbp
  refine ⟨?_, ?_, ?_, ?_, ?_, ?_, ?_, ?_⟩
  · intro i
    exact hrV i
  · intro i
    exact exp_dev_mem (hbTau i) (hv.2.2.1 i) (hrTau i).1 (hrTau i).2
  · intro i
    have hs : 0 < pmax.sigma i := hbSigma i
    exact exp_dev_mem (by positivity) (by nlinarith) (hrSigma i).1 (hrSigma i).2
  · intro j
    exact exp_dev_mem (hbK ⟨0, j.pos⟩) (hv.2.2.2.1 ⟨0, j.pos⟩) (hrK j).1 (hrK j).2
  · intro j
    obtain ⟨j2, hj2⟩ := initial_n_mem pmin pmax d j
    refine ⟨j2, ?_⟩
    rw [hj2]
    exact exp_dev_mem (hbN j2) (hv.2.2.2.2.1 j2) (hrN j2).1 (hrN j2).2
  · intro j
    exact hrE j
  · intro j
    exact hrChi j
  · intro j
    exact hrOmega j

/-- Concrete validity of the two-planet bounds. -/
theorem validBounds_B : validBounds pminB pmaxB := by
  refine ⟨?_, ?_, ?_, ?_, ?_, ?_, ?_, ?_⟩ <;>
    simp [pminB, pmaxB] <;> norm_num

/-- Concrete positivity of the two-planet bounds. -/
theorem boundsPos_B : boundsPos pminB pmaxB := by
  refine ⟨?_, ?_, ?_, ?_⟩ <;> simp [pminB, pmaxB] <;> norm_num

/-- Auxiliary numeric bound: `1 < log 4`. -/
theorem one_lt_log_four : (1 : ℝ) < Real.log 4 := by
  rw [Real.lt_log_iff_exp_lt (by norm_num)]
  calc Real.exp 1 < 2.7182818286 := Real.exp_one_lt_d9
    _ < 4 := by norm_num

/-- The concrete deviates `dI` satisfy the draw contracts for
`pminB`/`pmaxB`. -/
theorem drawsInRange_dI : DrawsInRange pminB pmaxB dI := by
  have hlog2 : (0 : ℝ) < Real.log 2 := Real.log_pos (by norm_num)
  have hloghalf : Real.log ((1 : ℝ) / 2) ≤ 0 :=
    Real.log_nonpos (by norm_num) (by norm_num)
  have hpi : (1 : ℝ) < 2 * Real.pi := by nlinarith [Real.pi_gt_three]
  refine ⟨?_, ?_, ?_, ?_, ?_, ?_, ?_, ?_⟩
  · intro i
    norm_num [dI, pminB, pmaxB]
  · intro i
    simp only [dI, pminB, pmaxB]
    exact ⟨hloghalf, hlog2⟩
  · intro i
    simp only [dI, pminB, pmaxB]
    exact ⟨Real.log_nonpos (by norm_num) (by norm_num), hlog2⟩
  · intro j
    simp only [dI, pminB, pmaxB]
    exact ⟨hloghalf, hlog2⟩
  · intro j
    constructor
    · simp only [pminB]
      refine le_trans hloghalf ?_
      fin_cases j <;> norm_num [dI]
    · simp only [pmaxB]
      refine lt_of_le_of_lt ?_ one_lt_log_four
      fin_cases j <;> norm_num [dI]
  · intro j
    norm_num [dI]
  · intro j
    norm_num [dI]
  · intro j
    simp only [dI]
    exact ⟨by norm_num, hpi⟩

/-- The boundary-hitting deviates `dI0` also satisfy the draw contracts. -/
theorem drawsInRange_dI0 : DrawsInRange pminB pmaxB dI0 := by
  have hlog2 : (0 : ℝ) < Real.log 2 := Real.log_pos (by norm_num)
  have hloghalf : Real.log ((1 : ℝ) / 2) ≤ 0 :=
    Real.log_nonpos (by norm_num) (by norm_num)
  have hpi : (1 : ℝ) < 2 * Real.pi := by nlinarith [Real.pi_gt_three]
  refine ⟨?_, ?_, ?_, ?_, ?_, ?_, ?_, ?_⟩
  · intro i
    norm_num [dI0, pminB, pmaxB]
  · intro i
    simp only [dI0, pminB, pmaxB]
    exact ⟨hloghalf, hlog2⟩
  · intro i
    simp only [dI0, pminB, pmaxB]
    exact ⟨Real.log_nonpos (by norm_num) (by norm_num), hlog2⟩
  · intro j
    simp only [dI0, pminB, pmaxB]
    exact ⟨hloghalf, hlog2⟩
  · intro j
    constructor
    · simp only [pminB]
      refine le_trans hloghalf ?_
      fin_cases j <;> norm_num [dI0]
    · simp only [pmaxB]
      refine lt_of_le_of_lt ?_ one_lt_log_four
      fin_cases j <;> norm_num [dI0]
  · intro j
    norm_num [dI0]
  · intro j
    norm_num [dI0]
  · intro j
    simp only [dI0]
    exact ⟨by norm_num, hpi⟩

/-- Claim C6, counterexample: with the valid bounds `pminB`/`pmaxB` and the
admissible deviates `dI0` (the `e` draw hits `0`, which numpy's half-open
`uniform(0, 1)` attains), the produced parameter vector is not strictly inside
the open box and the Prior Evaluator immediately returns `-infinity` on it. -/
theorem C6_counterexample :
    validBounds pminB pmaxB ∧ DrawsInRange pminB pmaxB dI0 ∧
      ¬strictlyInside pminB pmaxB (generate_initial_sample pminB pmaxB dI0) ∧
      logPrior pminB pmaxB (generate_initial_sample pminB pmaxB dI0)
        = (⊥ : EReal) := by
  have he : (generate_initial_sample pminB pmaxB dI0).e 0 ≤ pminB.e 0 := by
    simp [generate_initial_sample, dI0, pminB]
  refine ⟨validBounds_B, drawsInRange_dI0, ?_, ?_⟩
  · intro h
    have hlt := (h.2.2.2.2.2.1 0).1
    exact absurd hlt (not_lt.mpr he)
  · have hany : anyLe (generate_initial_sample pminB pmaxB dI0) pminB := by
      unfold anyLe
      exact Or.inr (Or.inr (Or.inr (Or.inr (Or.inr (Or.inl ⟨0, he⟩)))))
    unfold logPrior
    rw [if_pos (Or.inl hany)]

/-- Witness for C6 at concrete bounds and deviates. -/
theorem C6_initializer_ranges_witness :
    (validBounds pminB pmaxB ∧ boundsPos pminB pmaxB ∧
        DrawsInRange pminB pmaxB dI) ∧
      ((∀ i, pminB.V i ≤ (generate_initial_sample pminB pmaxB dI).V i ∧
        (generate_initial_sample pminB pmaxB dI).V i < pmaxB.V i) ∧
      (∀ i, pminB.tau i ≤ (generate_initial_sample pminB pmaxB dI).tau i ∧
        (generate_initial_sample pminB pmaxB dI).tau i < pmaxB.tau i) ∧
      (∀ i, pmaxB.sigma i / 1000 ≤ (generate_initial_sample pminB pmaxB dI).sigma i ∧
        (generate_initial_sample pminB pmaxB dI).sigma i < pmaxB.sigma i) ∧
      (∀ j : Fin 2, pminB.K ⟨0, j.pos⟩ ≤ (generate_initial_sample pminB pmaxB dI).K j ∧
        (generate_initial_sample pminB pmaxB dI).K j < pmaxB.K ⟨0, j.pos⟩) ∧
      (∀ j, ∃ j2, pminB.n j2 ≤ (generate_initial_sample pminB pmaxB dI).n j ∧
        (generate_initial_sample pminB pmaxB dI).n j < pmaxB.n j2) ∧
      (∀ j, 0 ≤ (generate_initial_sample pminB pmaxB dI).e j ∧
        (generate_initial_sample pminB pmaxB dI).e j < 1) ∧
      (∀ j, 0 ≤ (generate_initial_sample pminB pmaxB dI).chi j ∧
        (generate_initial_sample pminB pmaxB dI).chi j < 1) ∧
      (∀ j, 0 ≤ (generate_initial_sample pminB pmaxB dI).omega j ∧
        (generate_initial_sample pminB pmaxB dI).omega j < 2 * Real.pi)) :=
  ⟨⟨validBounds_B, boundsPos_B, drawsInRange_dI⟩,
    C6_initializer_ranges pminB pmaxB dI validBounds_B boundsPos_B drawsInRange_dI⟩

/-- Claim C7: for every multi-planet configuration and every outcome of the
draws, the initializer's periods `P = 2 pi / n` are non-decreasing along the
planet axis (the mean motions are sorted into non-increasing order), so the
output satisfies the Prior Evaluator's identifiability ordering check. -/
theorem C7_periods_sorted {nobs npl : ℕ} (pmin pmax : Params nobs npl)
    (d : InitDraws nobs npl) (hnpl : 1 ≤ npl) :
    (∀ i j : Fin npl, i ≤ j →
      Params.P (generate_initial_sample pmin pmax d) i
        ≤ Params.P (generate_initial_sample pmin pmax d) j) ∧
      ¬periodsOutOfOrder (generate_initial_sample pmin pmax d) := by
  have hpos : ∀ j, 0 < (generate_initial_sample pmin pmax d).n j := by
    intro j
    obtain ⟨j2, hj2⟩ := initial_n_mem pmin pmax d j
    rw [hj2]
    exact Real.exp_pos _
  have hdesc : ∀ i j : Fin npl, i ≤ j →
      (generate_initial_sample pmin pmax d).n j
        ≤ (generate_initial_sample pmin pmax d).n i := by
    intro i j hij
    rcases eq_or_lt_of_le hij with heq | hlt
    · rw [heq]
    · have hleni : (i : ℕ) <
          (sortDescend (List.ofFn fun j2 => Real.exp (d.uN j2))).length := by
        rw [sortDescend_length, List.length_ofFn]
        exact i.isLt
      have hlenj : (j : ℕ) <
          (sortDescend (List.ofFn fun j2 => Real.exp (d.uN j2))).length := by
        rw [sortDescend_length, List.length_ofFn]
        exact j.isLt
      rw [initial_n_get pmin pmax d i hleni, initial_n_get pmin pmax d j hlenj]
      have hp := sortDescend_pairwise (List.ofFn fun j2 => Real.exp (d.uN j2))
      rw [List.pairwise_iff_get] at hp
      exact hp ⟨i, hleni⟩ ⟨j, hlenj⟩ hlt
  have hP : ∀ i j : Fin npl, i ≤ j →
      Params.P (generate_initial_sample pmin pmax d) i
        ≤ Params.P (generate_initial_sample pmin pmax d) j := by
    intro i j hij
    unfold Params.P
    rw [div_le_div_left (by positivity) (hpos i) (hpos j)]
    exact hdesc i j hij
  refine ⟨hP, ?_⟩
  rintro ⟨i, j, hij, hlt⟩
  have hle : i ≤ j := by
    rw [Fin.le_def]
    omega
  exact absurd hlt (not_lt.mpr (hP i j hle))

/-- Witness for C7 at a concrete two-planet configuration. -/
theorem C7_periods_sorted_witness :
    (1 ≤ 2) ∧
      ((∀ i j : Fin 2, i ≤ j →
        Params.P (generate_initial_sample pminB pmaxB dI) i
          ≤ Params.P (generate_initial_sample pminB pmaxB dI) j) ∧
        ¬periodsOutOfOrder (generate_initial_sample pminB pmaxB dI)) :=
  ⟨by norm_num, C7_periods_sorted pminB pmaxB dI (by norm_num)⟩

/-- Claim C10: every `sigma0` drawn by the bounds-driven initializer lies in
`[pmax.sigma/1000, pmax.sigma]`; `pmin.sigma` is never consulted, so whenever
`pmin.sigma > pmax.sigma/1000` there are admissible deviates producing a
`sigma0` at or below `pmin.sigma`. -/
theorem C10_sigma_range {nobs npl : ℕ} (pmin pmax : Params nobs npl)
    (d : InitDraws nobs npl) (hsp : ∀ i, 0 < pmax.sigma i)
    (hr : DrawsInRange pmin pmax d) :
    (∀ i, pmax.sigma i / 1000 ≤ (generate_initial_sample pmin pmax d).sigma i ∧
      (generate_initial_sample pmin pmax d).sigma i ≤ pmax.sigma i) ∧
      ∀ i, pmax.sigma i / 1000 < pmin.sigma i →
        ∃ d2 : InitDraws nobs npl, DrawsInRange pmin pmax d2 ∧
          (generate_initial_sample pmin pmax d2).sigma i ≤ pmin.sigma i := by
  constructor
  · intro i
    have h := exp_dev_mem (div_pos (hsp i) (by norm_num))
      (by nlinarith [hsp i]) (hr.2.2.1 i).1 (hr.2.2.1 i).2
    exact ⟨h.1, le_of_lt h.2⟩
  · intro i hlt
    refine ⟨{ d with uSigma := fun i2 =>
      if i2 = i then Real.log (pmax.sigma i / 1000) else d.uSigma i2 }, ?_, ?_⟩
    · obtain ⟨hrV, hrTau, hrSigma, hrK, hrN, hrE, hrChi, hrOmega⟩ := hr
      refine ⟨hrV, hrTau, ?_, hrK, hrN, hrE, hrChi, hrOmega⟩
      intro i2
      by_cases h2 : i2 = i
      · subst h2
        simp only [if_pos rfl]
        refine ⟨le_refl _, ?_⟩
        exact Real.log_lt_log (div_pos (hsp i2) (by norm_num))
          (by nlinarith [hsp i2])
      · simp only [if_neg h2]
        exact hrSigma i2
    · show Real.exp (if i = i then Real.log (pmax.sigma i / 1000) else d.uSigma i)
        ≤ pmin.sigma i
      rw [if_pos rfl, Real.exp_log (div_pos (hsp i) (by norm_num))]
      exact le_of_lt hlt

/-- Witness for C10 at concrete bounds and deviates. -/
theorem C10_sigma_range_witness :
    ((∀ i, 0 < pmaxB.sigma i) ∧ DrawsInRange pminB pmaxB dI) ∧
      ((∀ i, pmaxB.sigma i / 1000 ≤ (generate_initial_sample pminB pmaxB dI).sigma i ∧
        (generate_initial_sample pminB pmaxB dI).sigma i ≤ pmaxB.sigma i) ∧
        ∀ i, pmaxB.sigma i / 1000 < pminB.sigma i →
          ∃ d2 : InitDraws 1 2, DrawsInRange pminB pmaxB d2 ∧
            (generate_initial_sample pminB pmaxB d2).sigma i ≤ pminB.sigma i) := by
  have hsp : ∀ i, 0 < pmaxB.sigma i := by
    intro i
    norm_num [pmaxB]
  exact ⟨⟨hsp, drawsInRange_dI⟩, C10_sigma_range pminB pmaxB dI hsp drawsInRange_dI⟩

/-- Translation invariance of the evaluator: only `xs - means` enters the
computation, so passing the offset as the mean equals passing the fully
subtracted residual with mean zero. -/
theorem cgl_shift {n : ℕ} (xs means : Fin n → ℝ)
    (cov : Matrix (Fin n) (Fin n) ℝ) :
    correlated_gaussian_loglikelihood xs means cov
      = correlated_gaussian_loglikelihood (fun k => xs k - means k)
          (fun _ => 0) cov := by
  unfold correlated_gaussian_loglikelihood
  simp only [sub_zero]

/-- Claim C8: the Log-Likelihood Assembler returns the sum over observatories
of the correlated Gaussian log-density with mean zero of the residual
`rvs[i] - orbit_sum - V[i]` under the covariance built from
`ts[i], sigma[i], tau[i]`; for `npl = 0` the orbit contribution is the zero
vector.  (The code passes `residual = rvs[i] - orbit_sum` with mean
`V[i] * ones`; by translation invariance this equals the claimed form.) -/
theorem C8_assembler_sum {nobs npl : ℕ} (m : Fin nobs → ℕ)
    (ts rvs : (i : Fin nobs) → Fin (m i) → ℝ)
    (rvModel : (i : Fin nobs) → Params nobs npl → Fin npl → Fin (m i) → ℝ)
    (p : Params nobs npl) :
    logLikelihoodCall m ts rvs rvModel p
      = ∑ i, correlated_gaussian_loglikelihood
          (fun k => rvs i k - (if npl = 0 then 0 else ∑ j, rvModel i p j k)
            - p.V i)
          (fun _ => 0)
          (generate_covariance (ts i) (p.sigma i) (p.tau i)) := by
  unfold logLikelihoodCall
  refine Finset.sum_congr rfl (fun i _ => ?_)
  rw [cgl_shift]

/-- Claim C9: the Recenterer produces an ensemble exactly when the
configuration has one planet and one observatory, and otherwise fails fast
with an assertion error (`none`), for every input ensemble, log-likelihood
array, deviates and spread factor. -/
theorem C9_recenter_single_only {nobs npl cells m : ℕ} (ts : Fin (m + 1) → ℝ)
    (chains : Fin (cells + 1) → Params nobs npl)
    (logls : Fin (cells + 1) → ℝ) (d : RecDraws nobs npl (cells + 1))
    (sf : ℝ) :
    (∃ out, recenter_samples ts chains logls d sf = some out)
      ↔ (npl = 1 ∧ nobs = 1) := by
  unfold recenter_samples
  by_cases h : npl = 1 ∧ nobs = 1
  · simp only [if_pos h]
    exact ⟨fun _ => h, fun _ => ⟨_, rfl⟩⟩
  · simp only [if_neg h]
    exact ⟨fun ⟨out, hout⟩ => absurd hout (by simp), fun hh => absurd hh h⟩

end RVFit
